import Mathlib

/-!
Shallow embedding of the extraction core of `app.py` (Notes-Generator).

Text is modelled as `List Char`; Python strings map to char lists, bytes to
`List Nat`.  Library failure points (image retrieval/decoding, relationship
walks) are modelled by `Option`: `none` stands for the `except`-caught failure
of the corresponding `try` block.
-/

set_option autoImplicit false

/-- Whitespace in the sense of Python's `re` module `\s` class and `str.strip`
(the set matched for `str` patterns: ASCII whitespace, the C1 separators
`0x1c`-`0x1f`, and the Unicode space characters). -/
def isPyWs (c : Char) : Bool :=
  let n := c.toNat
  n = 0x20 || (0x9 ≤ n && n ≤ 0xD) || (0x1C ≤ n && n ≤ 0x1F) || n = 0x85 ||
  n = 0xA0 || n = 0x1680 || (0x2000 ≤ n && n ≤ 0x200A) || n = 0x2028 ||
  n = 0x2029 || n = 0x202F || n = 0x205F || n = 0x3000

/-- Characters outside the 7-bit ASCII range, as matched by `[^\x00-\x7F]`. -/
def isNonAscii (c : Char) : Bool :=
  0x7F < c.toNat

/-- Model of `re.sub(p+, ' ', text)`: every maximal run of characters
satisfying `p` is replaced by a single space. -/
def collapseRuns (p : Char → Bool) : List Char → List Char
  | [] => []
  | [c] => if p c then [' '] else [c]
  | c :: d :: cs =>
    if p c && p d then collapseRuns p (d :: cs)
    else (if p c then ' ' else c) :: collapseRuns p (d :: cs)

/-- Model of Python `str.lstrip()` (no argument): drop leading whitespace. -/
def dropLeadWs : List Char → List Char
  | [] => []
  | c :: cs => if isPyWs c then dropLeadWs cs else c :: cs

/-- Model of Python `str.rstrip()` (no argument): drop trailing whitespace. -/
def dropTrailWs : List Char → List Char
  | [] => []
  | c :: cs =>
    match dropTrailWs cs with
    | [] => if isPyWs c then [] else [c]
    | d :: ds => c :: d :: ds

/-- Model of Python `str.strip()` (no argument). -/
def stripWs (l : List Char) : List Char :=
  dropTrailWs (dropLeadWs l)

/-- `clean_text` from `app.py`: empty input maps to the empty string;
otherwise whitespace runs are collapsed to one space, then non-ASCII runs are
replaced by a space, then the result is stripped. -/
def clean_text (l : List Char) : List Char :=
  if l = [] then []
  else stripWs (collapseRuns isNonAscii (collapseRuns isPyWs l))

/-- Model of Python `str.split(sep)` for a one-character separator: always
returns at least one (possibly empty) fragment. -/
def splitOnChar (sep : Char) : List Char → List (List Char)
  | [] => [[]]
  | c :: cs =>
    match splitOnChar sep cs with
    | [] => [[]]
    | g :: gs => if c = sep then [] :: g :: gs else (c :: g) :: gs

/-- Model of Python `sep.join(parts)` for a one-character separator. -/
def joinWith (sep : Char) : List (List Char) → List Char
  | [] => []
  | [x] => x
  | x :: y :: t => x ++ sep :: joinWith sep (y :: t)

/-- Whether `pat` occurs at the start of `l` (helper for substring search). -/
def listStartsWith : List Char → List Char → Bool
  | [], _ => true
  | _ :: _, [] => false
  | c :: cs, d :: ds => c = d && listStartsWith (cs) (ds)

/-- Model of Python `pat in s`: contiguous-subsequence containment. -/
def containsSeq (pat : List Char) : List Char → Bool
  | [] => pat.isEmpty
  | c :: cs => listStartsWith pat (c :: cs) || containsSeq pat cs

/-- Model of Python `str.isupper()` over the ASCII fragment: at least one
cased character and no lowercase character. -/
def pyIsUpper (l : List Char) : Bool :=
  l.any (fun c => c.isAlpha) && l.all (fun c => !c.isLower)

/-- The base64 alphabet. -/
def b64chars : List Char :=
  "ABCDEFGHIJKLMNOPQRSTUVWXYZabcdefghijklmnopqrstuvwxyz0123456789+/".toList

/-- Character for a six-bit value. -/
def b64char (n : Nat) : Char :=
  b64chars.getD n 'A'

/-- Model of `base64.b64encode` over a byte list. -/
def b64encode : List Nat → List Char
  | [] => []
  | [a] => [b64char (a / 4), b64char (a % 4 * 16), '=', '=']
  | [a, b] => [b64char (a / 4), b64char (a % 4 * 16 + b / 16), b64char (b % 16 * 4), '=']
  | a :: b :: c :: rest =>
    b64char (a / 4) :: b64char (a % 4 * 16 + b / 16) ::
    b64char (b % 16 * 4 + c / 64) :: b64char (c % 64) :: b64encode rest

/-- One structural unit of a document (`slides_data` / `sections` entries). -/
structure Block where
  number : Nat
  type : String
  title : List Char
  content : List Char
  has_content : Bool
deriving DecidableEq

/-- One embedded raster asset (`all_images` / `images` entries). -/
structure Image where
  id : String
  slide : Nat
  src : String
  type : String
deriving DecidableEq

/-! ## Paginated-document extractor (`extract_pdf`, primary PyMuPDF path) -/

/-- The result of `doc.extract_image(xref)`: raw bytes and extension. -/
structure PdfImageInfo where
  image : List Nat
  ext : String
deriving DecidableEq

/-- One PDF page: its raw text and the outcomes of extracting each entry of
`page.get_images(full=True)` (`none` = the `try` body raised). -/
structure PdfPage where
  text : List Char
  images : List (Option PdfImageInfo)
deriving DecidableEq

/-- The image loop of `extract_pdf` for one page: `img_index` enumerates all
entries, failed extractions are skipped (`except: continue`). -/
def pdfPageImages (page_num : Nat) : Nat → List (Option PdfImageInfo) → List Image
  | _, [] => []
  | i, none :: rest => pdfPageImages page_num (i + 1) rest
  | i, some info :: rest =>
    { id := "pdf_p" ++ toString page_num ++ "_img" ++ toString i,
      slide := page_num + 1,
      src := "data:image/" ++ info.ext ++ ";base64," ++ (b64encode info.image).asString,
      type := "pdf" } :: pdfPageImages page_num (i + 1) rest

/-- The page loop of `extract_pdf` (pages indexed from `page_num`). -/
def extractPdfGo : Nat → List PdfPage → List Block × List Image
  | _, [] => ([], [])
  | page_num, pg :: rest =>
    let clean := clean_text pg.text
    let blocks0 : List Block :=
      if clean = [] then []
      else [{ number := page_num + 1, type := "page",
              title := ("Page " ++ toString (page_num + 1)).toList,
              content := clean, has_content := decide (50 < clean.length) }]
    let imgs := pdfPageImages page_num 0 pg.images
    let r := extractPdfGo (page_num + 1) rest
    (blocks0 ++ r.1, imgs ++ r.2)

/-- `extract_pdf` (the primary `fitz` path of `app.py`). -/
def extract_pdf (ps : List PdfPage) : List Block × List Image :=
  extractPdfGo 0 ps

/-! ## Slide-deck extractor (`extract_pptx`) -/

/-- The `shape.image` object: blob bytes and optional `ext` attribute. -/
structure PptxImageInfo where
  blob : List Nat
  ext : Option String
deriving DecidableEq

/-- One slide shape: optional `text` attribute, `shape_type`, and the outcome
of retrieving `shape.image` (`none` = the `try` body raised). -/
structure PptxShape where
  text : Option (List Char)
  shape_type : Nat
  image : Option PptxImageInfo
deriving DecidableEq

/-- Per-slide walking state of `extract_pptx` (the `images` list is the
global, cross-slide list because ids use `len(images)`). -/
structure PptxState where
  slide_text : List (List Char)
  slide_title : List Char
  has_title : Bool
  images : List Image
deriving DecidableEq

/-- The first-slide positional title condition of `extract_pptx`:
`not has_title and len(shape.text.strip()) < 100 and idx == 1`. -/
def pptxTitleCond (hasTitle : Bool) (ts : List Char) (idx : Nat) : Prop :=
  hasTitle = false ∧ ts.length < 100 ∧ idx = 1

instance (h : Bool) (ts : List Char) (i : Nat) : Decidable (pptxTitleCond h ts i) := by
  unfold pptxTitleCond; infer_instance

/-- The image entry built inside the shape loop of `extract_pptx`;
`count` is `len(images)` at append time. -/
def pptxMkImage (idx : Nat) (count : Nat) (info : PptxImageInfo) : Image :=
  { id := "pptx_s" ++ toString idx ++ "_img" ++ toString count,
    slide := idx,
    src := "data:image/" ++ info.ext.getD "png" ++ ";base64," ++
           (b64encode info.blob).asString,
    type := "pptx" }

/-- The text handling of one shape inside the slide loop of `extract_pptx`. -/
def pptxTextStep (idx : Nat) (st : PptxState) (sh : PptxShape) : PptxState :=
  match sh.text with
  | none => st
  | some t =>
    let ts := stripWs t
    if ts = [] then st
    else if pptxTitleCond st.has_title ts idx then
      { st with slide_title := ts, has_title := true }
    else
      { st with slide_text := st.slide_text ++ [ts] }

/-- The picture handling of one shape inside the slide loop of
`extract_pptx` (`shape_type == 13`; a failed retrieval is skipped). -/
def pptxPicStep (idx : Nat) (st : PptxState) (sh : PptxShape) : PptxState :=
  if sh.shape_type = 13 then
    match sh.image with
    | none => st
    | some info =>
      { st with images := st.images ++ [pptxMkImage idx st.images.length info] }
  else st

/-- Processing of one shape inside the slide loop of `extract_pptx`: text
handling first, then picture handling, as in the source loop body. -/
def pptxShapeStep (idx : Nat) (st : PptxState) (sh : PptxShape) : PptxState :=
  pptxPicStep idx (pptxTextStep idx st sh) sh

/-- The secondary title-inference condition of `extract_pptx`:
`len(lines) > 0 and len(lines[0]) < 80 and not has_title`. -/
def pptxInferCond (lines : List (List Char)) (hasTitle : Bool) : Prop :=
  0 < lines.length ∧ (lines.headD []).length < 80 ∧ hasTitle = false

instance (ls : List (List Char)) (h : Bool) : Decidable (pptxInferCond ls h) := by
  unfold pptxInferCond; infer_instance

/-- The secondary title inference of `extract_pptx`: split the cleaned
content on `.`, and when the first fragment is short and no title was found,
promote it to the title and drop it from the content. Returns
`(title, content)`. -/
def pptxTitleContent (st : PptxState) (content : List Char) : List Char × List Char :=
  let lines := splitOnChar '.' content
  if pptxInferCond lines st.has_title then
    (stripWs (lines.headD []), stripWs (joinWith '.' lines.tail))
  else (st.slide_title, content)

/-- Processing of one slide of `extract_pptx`: shape walk, join and clean,
secondary title inference, block emission. -/
def pptxSlide (idx : Nat) (imgs : List Image) (shapes : List PptxShape) :
    Block × List Image :=
  let st := shapes.foldl (pptxShapeStep idx)
    { slide_text := [], slide_title := ("Slide " ++ toString idx).toList,
      has_title := false, images := imgs }
  let tc := pptxTitleContent st (clean_text (joinWith '\n' st.slide_text))
  ({ number := idx, type := "slide", title := tc.1, content := tc.2,
     has_content := decide (30 < tc.2.length) }, st.images)

/-- The slide loop of `extract_pptx` (slides enumerated from `idx`). -/
def extractPptxGo : Nat → List Image → List (List PptxShape) → List Block × List Image
  | _, imgs, [] => ([], imgs)
  | idx, imgs, shapes :: rest =>
    let p := pptxSlide idx imgs shapes
    let r := extractPptxGo (idx + 1) p.2 rest
    (p.1 :: r.1, r.2)

/-- `extract_pptx` from `app.py`; a deck is the list of its slides' shape
lists, in slide order. -/
def extract_pptx (slides : List (List PptxShape)) : List Block × List Image :=
  extractPptxGo 1 [] slides

/-! ## Flowing-document extractor (`extract_docx`) -/

/-- One docx paragraph: its raw text and whether
`para.style.name.startswith('Heading')` holds. -/
structure DocxPara where
  text : List Char
  style_heading : Bool
deriving DecidableEq

/-- One entry of `doc.part.rels`: its `target_ref` and the outcome of reading
`rel.target_part.blob` (`none` = the inner `try` body raised). -/
structure DocxRel where
  target_ref : List Char
  blob : Option (List Nat)
deriving DecidableEq

/-- A docx document: paragraph stream plus the relationship walk outcome
(`none` = accessing `doc.part.rels` raised, caught by the outer `except`). -/
structure DocxDoc where
  paragraphs : List DocxPara
  rels : Option (List DocxRel)
deriving DecidableEq

/-- The heading test of `extract_docx`:
`len(text) < 100 and (text.isupper() or text.endswith(':') or
para.style.name.startswith('Heading'))`. -/
def isDocxHeading (t : List Char) (styleHeading : Bool) : Prop :=
  t.length < 100 ∧ (pyIsUpper t = true ∨ t.getLast? = some ':' ∨ styleHeading = true)

instance (t : List Char) (s : Bool) : Decidable (isDocxHeading t s) := by
  unfold isDocxHeading; infer_instance

/-- A `section`-kind block as flushed by `extract_docx`;
`has_content` is hardcoded `True` in the source. -/
def mkSection (sc : Nat) (texts : List (List Char)) : Block :=
  { number := sc, type := "section",
    title := ("Section " ++ toString sc).toList,
    content := clean_text (joinWith '\n' texts), has_content := true }

/-- A `heading`-kind block as emitted by `extract_docx`. -/
def mkHeading (sc : Nat) (t : List Char) : Block :=
  { number := sc, type := "heading", title := t, content := [],
    has_content := false }

/-- The paragraph loop of `extract_docx`, carrying `section_count` and the
accumulated `current_text`, followed by the final flush. -/
def docxGo : Nat → List (List Char) → List DocxPara → List Block
  | sc, cur, [] => if cur = [] then [] else [mkSection sc cur]
  | sc, cur, p :: rest =>
    let t := stripWs p.text
    if t = [] then docxGo sc cur rest
    else if isDocxHeading t p.style_heading then
      if cur = [] then mkHeading sc t :: docxGo sc [] rest
      else mkSection sc cur :: mkHeading (sc + 1) t :: docxGo (sc + 1) [] rest
    else docxGo sc (cur ++ [t]) rest

/-- Processing of one relationship in the image loop of `extract_docx`:
non-image refs are skipped, failed blob reads are skipped, the extension is
sniffed from the byte signature. -/
def docxRelStep (acc : List Image) (r : DocxRel) : List Image :=
  if containsSeq "image".toList r.target_ref then
    match r.blob with
    | none => acc
    | some bytes =>
      let ext := if bytes.take 4 = [0x89, 0x50, 0x4E, 0x47] then "png"
                 else if bytes.take 2 = [0xFF, 0xD8] then "jpeg" else "png"
      acc ++ [{ id := "docx_img" ++ toString acc.length, slide := 1,
                src := "data:image/" ++ ext ++ ";base64," ++ (b64encode bytes).asString,
                type := "docx" }]
  else acc

/-- The document-level image walk of `extract_docx` (whole walk yields `[]`
when enumerating the relationships raised). -/
def docxAllImages : Option (List DocxRel) → List Image
  | none => []
  | some rs => rs.foldl docxRelStep []

/-- `extract_docx` from `app.py`: paragraph walk, relationship image walk,
and the single-`document`-block fallback when no sections were found. -/
def extract_docx (d : DocxDoc) : List Block × List Image :=
  let sections := docxGo 1 [] d.paragraphs
  let images := docxAllImages d.rels
  let sections :=
    if sections = [] then
      [{ number := 1, type := "document", title := "Document".toList,
         content := clean_text (joinWith '\n'
           (((d.paragraphs.filter (fun p => !(stripWs p.text).isEmpty)).map
             (fun p => p.text)))),
         has_content := true }]
    else sections
  (sections, images)

/-! ## Lemmas about the text normalizer -/

theorem isPyWs_space : isPyWs ' ' = true := by decide

theorem isNonAscii_space : isNonAscii ' ' = false := by decide

/-- No two adjacent characters of the list both satisfy `p`. -/
def noTwo (p : Char → Bool) : List Char → Bool
  | a :: b :: t => !(p a && p b) && noTwo p (b :: t)
  | _ => true

theorem noTwo_tail {p : Char → Bool} {a : Char} {l : List Char}
    (h : noTwo p (a :: l) = true) : noTwo p l = true := by
  cases l with
  | nil => rfl
  | cons b t => exact (Bool.and_eq_true .. |>.mp h).2

theorem noTwo_cons_of_left {p : Char → Bool} {a : Char} {l : List Char}
    (h : p a = false) (h2 : noTwo p l = true) : noTwo p (a :: l) = true := by
  cases l with
  | nil => rfl
  | cons b t => simp [noTwo, h, h2]

theorem noTwo_cons_of_head {p : Char → Bool} {a b : Char} {t : List Char}
    (h : p b = false) (h2 : noTwo p (b :: t) = true) :
    noTwo p (a :: b :: t) = true := by
  simp [noTwo, h, h2]

theorem cr_ne_nil {p : Char → Bool} : ∀ {l : List Char}, l ≠ [] → collapseRuns p l ≠ []
  | [], h => absurd rfl h
  | [a], _ => by
    rw [collapseRuns]
    split <;> simp
  | a :: d :: cs, _ => by
    rw [collapseRuns]
    split
    · exact cr_ne_nil (by simp)
    · simp

theorem cr_head_of_neg {p : Char → Bool} {d : Char} (cs : List Char)
    (h : p d = false) : ∃ es, collapseRuns p (d :: cs) = d :: es := by
  cases cs with
  | nil => exact ⟨[], by rw [collapseRuns, if_neg (by simp [h])]⟩
  | cons e es' =>
    refine ⟨collapseRuns p (e :: es'), ?_⟩
    rw [collapseRuns, if_neg (by simp [h]), if_neg (by simp [h])]

theorem cr_mem {p : Char → Bool} : ∀ {l : List Char} {c : Char},
    c ∈ collapseRuns p l → c = ' ' ∨ (c ∈ l ∧ p c = false)
  | [], c, h => by simp [collapseRuns] at h
  | [a], c, h => by
    rw [collapseRuns] at h
    by_cases hp : p a = true
    · rw [if_pos hp] at h
      exact Or.inl (by simpa using h)
    · rw [if_neg hp] at h
      have : c = a := by simpa using h
      subst this
      exact Or.inr ⟨by simp, by simpa using hp⟩
  | a :: d :: cs, c, h => by
    rw [collapseRuns] at h
    by_cases hp : (p a && p d) = true
    · rw [if_pos hp] at h
      rcases cr_mem h with h1 | ⟨h2, h3⟩
      · exact Or.inl h1
      · exact Or.inr ⟨List.mem_cons_of_mem a h2, h3⟩
    · rw [if_neg hp] at h
      rcases List.mem_cons.mp h with h1 | h1
      · subst h1
        by_cases hpa : p a = true
        · rw [if_pos hpa]; exact Or.inl rfl
        · rw [if_neg hpa]
          exact Or.inr ⟨by simp, by simpa using hpa⟩
      · rcases cr_mem h1 with h2 | ⟨h3, h4⟩
        · exact Or.inl h2
        · exact Or.inr ⟨List.mem_cons_of_mem a h3, h4⟩

theorem cr_noop {p : Char → Bool} : ∀ {l : List Char},
    (∀ c ∈ l, p c = false) → collapseRuns p l = l
  | [], _ => rfl
  | [a], h => by rw [collapseRuns, if_neg (by simp [h a (by simp)])]
  | a :: d :: cs, h => by
    have ha : p a = false := h a (by simp)
    rw [collapseRuns, if_neg (by simp [ha]), if_neg (by simp [ha]),
      cr_noop (fun c hc => h c (List.mem_cons_of_mem a hc))]

theorem cr_noTwo {p : Char → Bool} : ∀ {l : List Char},
    noTwo p (collapseRuns p l) = true
  | [] => rfl
  | [a] => by
    rw [collapseRuns]
    split <;> rfl
  | a :: d :: cs => by
    rw [collapseRuns]
    by_cases hp : (p a && p d) = true
    · rw [if_pos hp]; exact cr_noTwo
    · rw [if_neg hp]
      by_cases hpa : p a = true
      · have hpd : p d = false := by
          cases hd : p d with
          | false => rfl
          | true => exact absurd (by simp [hpa, hd]) hp
        obtain ⟨es, hes⟩ := cr_head_of_neg (p := p) cs hpd
        rw [if_pos hpa, hes]
        exact noTwo_cons_of_head hpd (hes ▸ cr_noTwo)
      · rw [if_neg hpa]
        exact noTwo_cons_of_left (by simpa using hpa) cr_noTwo

theorem cr_id {p : Char → Bool} : ∀ {l : List Char},
    (∀ c ∈ l, p c = true → c = ' ') → noTwo p l = true → collapseRuns p l = l
  | [], _, _ => rfl
  | [a], h, _ => by
    rw [collapseRuns]
    by_cases hp : p a = true
    · rw [if_pos hp, h a (by simp) hp]
    · rw [if_neg hp]
  | a :: d :: cs, h, h2 => by
    have h2' : ((p a && p d) = false ∧ noTwo p (d :: cs) = true) := by
      simpa only [noTwo, Bool.and_eq_true, Bool.not_eq_true'] using h2
    have hnd : (p a && p d) = false := h2'.1
    rw [collapseRuns, if_neg (by simp [hnd]),
      cr_id (fun c hc hpc => h c (List.mem_cons_of_mem a hc) hpc) (noTwo_tail h2)]
    by_cases hpa : p a = true
    · rw [if_pos hpa, h a (by simp) hpa]
    · rw [if_neg hpa]

theorem cr_filter {p r : Char → Bool} (hpr : ∀ c, p c = true → r c = false)
    (hsp : r ' ' = false) : ∀ {l : List Char},
    (collapseRuns p l).filter r = l.filter r
  | [] => rfl
  | [a] => by
    rw [collapseRuns]
    by_cases hp : p a = true
    · rw [if_pos hp]
      simp [List.filter, hsp, hpr a hp]
    · rw [if_neg hp]
  | a :: d :: cs => by
    rw [collapseRuns]
    by_cases hp : (p a && p d) = true
    · rw [if_pos hp]
      have hpa : p a = true := (Bool.and_eq_true .. |>.mp hp).1
      rw [cr_filter hpr hsp]
      simp [List.filter, hpr a hpa]
    · rw [if_neg hp]
      by_cases hpa : p a = true
      · rw [if_pos hpa]
        simp only [List.filter, hsp, hpr a hpa]
        exact cr_filter hpr hsp
      · rw [if_neg hpa, List.filter_cons, List.filter_cons, cr_filter hpr hsp]

theorem dl_mem {c : Char} : ∀ {l : List Char}, c ∈ dropLeadWs l → c ∈ l
  | [], h => by simp [dropLeadWs] at h
  | a :: l, h => by
    rw [dropLeadWs] at h
    by_cases hw : isPyWs a = true
    · rw [if_pos hw] at h
      exact List.mem_cons_of_mem a (dl_mem h)
    · rwa [if_neg hw] at h

theorem dl_noTwo {p : Char → Bool} : ∀ {l : List Char},
    noTwo p l = true → noTwo p (dropLeadWs l) = true
  | [], _ => rfl
  | a :: l, h => by
    rw [dropLeadWs]
    by_cases hw : isPyWs a = true
    · rw [if_pos hw]
      exact dl_noTwo (noTwo_tail h)
    · rwa [if_neg hw]

theorem dl_head : ∀ {l : List Char} {c : Char} {cs : List Char},
    dropLeadWs l = c :: cs → isPyWs c = false
  | [], c, cs, h => by simp [dropLeadWs] at h
  | a :: l, c, cs, h => by
    rw [dropLeadWs] at h
    by_cases hw : isPyWs a = true
    · rw [if_pos hw] at h
      exact dl_head h
    · rw [if_neg hw] at h
      cases h
      simpa using hw

theorem dl_filter {r : Char → Bool} (hwr : ∀ c, isPyWs c = true → r c = false) :
    ∀ {l : List Char}, (dropLeadWs l).filter r = l.filter r
  | [] => rfl
  | a :: l => by
    rw [dropLeadWs]
    by_cases hw : isPyWs a = true
    · rw [if_pos hw, List.filter_cons, if_neg (by simp [hwr a hw])]
      exact dl_filter hwr
    · rw [if_neg hw]

theorem dl_id {c : Char} {cs : List Char} (h : isPyWs c = false) :
    dropLeadWs (c :: cs) = c :: cs := by
  rw [dropLeadWs, if_neg (by simp [h])]

theorem dt_mem {c : Char} : ∀ {l : List Char}, c ∈ dropTrailWs l → c ∈ l
  | [], h => by simp [dropTrailWs] at h
  | a :: l, h => by
    rw [dropTrailWs] at h
    cases hdt : dropTrailWs l with
    | nil =>
      rw [hdt] at h
      by_cases hw : isPyWs a = true
      · rw [if_pos hw] at h
        simp at h
      · rw [if_neg hw] at h
        simp at h
        simp [h]
    | cons d ds =>
      rw [hdt] at h
      rcases List.mem_cons.mp h with h1 | h1
      · simp [h1]
      · exact List.mem_cons_of_mem a (dt_mem (hdt ▸ h1))

theorem dt_head_shape : ∀ {l : List Char} {c : Char} {cs : List Char},
    dropTrailWs l = c :: cs → ∃ t, l = c :: t := by
  intro l c cs h
  cases l with
  | nil => simp [dropTrailWs] at h
  | cons a l =>
    rw [dropTrailWs] at h
    cases hdt : dropTrailWs l with
    | nil =>
      rw [hdt] at h
      by_cases hw : isPyWs a = true
      · rw [if_pos hw] at h; cases h
      · rw [if_neg hw] at h
        cases h
        exact ⟨l, rfl⟩
    | cons d ds =>
      rw [hdt] at h
      cases h
      exact ⟨l, rfl⟩

theorem dt_nil_all_ws : ∀ {l : List Char}, dropTrailWs l = [] →
    ∀ c ∈ l, isPyWs c = true
  | [], _, c, hc => by simp at hc
  | a :: l, h, c, hc => by
    rw [dropTrailWs] at h
    cases hdt : dropTrailWs l with
    | nil =>
      rw [hdt] at h
      by_cases hw : isPyWs a = true
      · rcases List.mem_cons.mp hc with h1 | h1
        · exact h1 ▸ hw
        · exact dt_nil_all_ws hdt c h1
      · rw [if_neg hw] at h; cases h
    | cons d ds => rw [hdt] at h; cases h

theorem dt_noTwo {p : Char → Bool} : ∀ {l : List Char},
    noTwo p l = true → noTwo p (dropTrailWs l) = true
  | [], _ => rfl
  | a :: l, h => by
    rw [dropTrailWs]
    cases hdt : dropTrailWs l with
    | nil =>
      by_cases hw : isPyWs a = true
      · rw [if_pos hw]; rfl
      · rw [if_neg hw]; rfl
    | cons d ds =>
      obtain ⟨t, ht⟩ := dt_head_shape hdt
      subst ht
      have hrel : (!(p a && p d)) = true := by
        have := h
        simp only [noTwo, Bool.and_eq_true] at this
        simpa using this.1
      have htail : noTwo p (d :: ds) = true := hdt ▸ dt_noTwo (noTwo_tail h)
      simp only [noTwo, Bool.and_eq_true]
      exact ⟨hrel, htail⟩

theorem dt_last : ∀ {l : List Char} {c : Char},
    (dropTrailWs l).getLast? = some c → isPyWs c = false
  | [], c, h => by simp [dropTrailWs] at h
  | a :: l, c, h => by
    rw [dropTrailWs] at h
    cases hdt : dropTrailWs l with
    | nil =>
      rw [hdt] at h
      by_cases hw : isPyWs a = true
      · rw [if_pos hw] at h; simp at h
      · rw [if_neg hw] at h
        simp at h
        simpa [h] using hw
    | cons d ds =>
      rw [hdt] at h
      rw [List.getLast?_cons_cons] at h
      exact dt_last (hdt ▸ h)

theorem dt_filter {r : Char → Bool} (hwr : ∀ c, isPyWs c = true → r c = false) :
    ∀ {l : List Char}, (dropTrailWs l).filter r = l.filter r
  | [] => rfl
  | a :: l => by
    rw [dropTrailWs]
    cases hdt : dropTrailWs l with
    | nil =>
      have hall : l.filter r = [] := by
        rw [List.filter_eq_nil_iff]
        intro c hc
        simp [hwr c (dt_nil_all_ws hdt c hc)]
      by_cases hw : isPyWs a = true
      · rw [if_pos hw]
        simp [List.filter_cons, hwr a hw, hall]
      · rw [if_neg hw]
        rw [List.filter_cons, List.filter_cons, hall]
        have : List.filter r [] = ([] : List Char) := rfl
        split <;> simp [hall]
    | cons d ds =>
      have hthis : List.filter r (d :: ds) = List.filter r l := by
        have h' := dt_filter (l := l) hwr
        rwa [hdt] at h'
      have e1 : (a :: d :: ds : List Char) = [a] ++ (d :: ds) := rfl
      have e2 : (a :: l : List Char) = [a] ++ l := rfl
      show List.filter r (a :: d :: ds) = List.filter r (a :: l)
      rw [e1, e2, List.filter_append, List.filter_append, hthis]

theorem dt_id : ∀ {l : List Char},
    (∀ c, l.getLast? = some c → isPyWs c = false) → dropTrailWs l = l
  | [], _ => rfl
  | [a], h => by
    rw [dropTrailWs]
    have : isPyWs a = false := h a (by simp)
    simp [dropTrailWs, this]
  | a :: b :: t, h => by
    rw [dropTrailWs]
    have ih : dropTrailWs (b :: t) = b :: t :=
      dt_id (fun c hc => h c (by rwa [List.getLast?_cons_cons]))
    rw [ih]

theorem sw_mem {c : Char} {l : List Char} (h : c ∈ stripWs l) : c ∈ l :=
  dl_mem (dt_mem h)

theorem sw_noTwo {p : Char → Bool} {l : List Char} (h : noTwo p l = true) :
    noTwo p (stripWs l) = true :=
  dt_noTwo (dl_noTwo h)

theorem sw_head {l : List Char} {c : Char} {cs : List Char}
    (h : stripWs l = c :: cs) : isPyWs c = false := by
  obtain ⟨t, ht⟩ := dt_head_shape h
  exact dl_head ht

theorem sw_last {l : List Char} {c : Char}
    (h : (stripWs l).getLast? = some c) : isPyWs c = false :=
  dt_last h

theorem sw_filter {r : Char → Bool} (hwr : ∀ c, isPyWs c = true → r c = false)
    {l : List Char} : (stripWs l).filter r = l.filter r := by
  rw [stripWs, dt_filter hwr, dl_filter hwr]

theorem sw_id {l : List Char}
    (h1 : ∀ c cs, l = c :: cs → isPyWs c = false)
    (h2 : ∀ c, l.getLast? = some c → isPyWs c = false) : stripWs l = l := by
  cases l with
  | nil => rfl
  | cons a t =>
    rw [stripWs, dl_id (h1 a t rfl)]
    exact dt_id h2

theorem clean_mem {l : List Char} {c : Char} (h : c ∈ clean_text l) :
    c = ' ' ∨ c ∈ l := by
  rw [clean_text] at h
  by_cases hl : l = []
  · rw [if_pos hl] at h; simp at h
  · rw [if_neg hl] at h
    have h1 := sw_mem h
    rcases cr_mem h1 with h2 | ⟨h3, _⟩
    · exact Or.inl h2
    · rcases cr_mem h3 with h4 | ⟨h5, _⟩
      · exact Or.inl h4
      · exact Or.inr h5

theorem clean_ascii {l : List Char} {c : Char} (h : c ∈ clean_text l) :
    isNonAscii c = false := by
  rw [clean_text] at h
  by_cases hl : l = []
  · rw [if_pos hl] at h; simp at h
  · rw [if_neg hl] at h
    have h1 := sw_mem h
    rcases cr_mem h1 with h2 | ⟨_, h3⟩
    · exact h2 ▸ isNonAscii_space
    · exact h3

theorem clean_ws_space {l : List Char} {c : Char} (h : c ∈ clean_text l)
    (hw : isPyWs c = true) : c = ' ' := by
  rw [clean_text] at h
  by_cases hl : l = []
  · rw [if_pos hl] at h; simp at h
  · rw [if_neg hl] at h
    have h1 := sw_mem h
    rcases cr_mem h1 with h2 | ⟨h3, _⟩
    · exact h2
    · rcases cr_mem h3 with h4 | ⟨_, h5⟩
      · exact h4
      · exact absurd hw (by simp [h5])

theorem clean_noTwo {l : List Char} (hasc : ∀ c ∈ l, isNonAscii c = false) :
    noTwo isPyWs (clean_text l) = true := by
  rw [clean_text]
  by_cases hl : l = []
  · rw [if_pos hl]; rfl
  · rw [if_neg hl]
    have hu1 : ∀ c ∈ collapseRuns isPyWs l, isNonAscii c = false := by
      intro c hc
      rcases cr_mem hc with h2 | ⟨h3, _⟩
      · exact h2 ▸ isNonAscii_space
      · exact hasc c h3
    rw [cr_noop hu1]
    exact sw_noTwo cr_noTwo

theorem clean_head {l : List Char} {c : Char} {cs : List Char}
    (h : clean_text l = c :: cs) : isPyWs c = false := by
  rw [clean_text] at h
  by_cases hl : l = []
  · rw [if_pos hl] at h; cases h
  · rw [if_neg hl] at h
    exact sw_head h

theorem clean_last {l : List Char} {c : Char}
    (h : (clean_text l).getLast? = some c) : isPyWs c = false := by
  rw [clean_text] at h
  by_cases hl : l = []
  · rw [if_pos hl] at h; simp at h
  · rw [if_neg hl] at h
    exact sw_last h

theorem clean_fix {t : List Char}
    (h1 : ∀ c ∈ t, isPyWs c = true → c = ' ')
    (h2 : noTwo isPyWs t = true)
    (h3 : ∀ c ∈ t, isNonAscii c = false)
    (h4 : ∀ c cs, t = c :: cs → isPyWs c = false)
    (h5 : ∀ c, t.getLast? = some c → isPyWs c = false) :
    clean_text t = t := by
  rw [clean_text]
  by_cases ht : t = []
  · rw [if_pos ht, ht]
  · rw [if_neg ht, cr_id h1 h2, cr_noop h3]
    exact sw_id h4 h5

/-- C2, amended: `clean_text` is idempotent on every input consisting only of
7-bit ASCII characters (general inputs can break idempotence, see the
counterexample: replacing a non-ASCII run by a space after whitespace
collapsing can create a fresh double space). -/
theorem claimC2_clean_idempotent_ascii (s : List Char)
    (hasc : ∀ c ∈ s, c.toNat ≤ 0x7F) :
    clean_text (clean_text s) = clean_text s := by
  have hasc' : ∀ c ∈ s, isNonAscii c = false := by
    intro c hc
    simpa [isNonAscii, Nat.not_lt] using hasc c hc
  exact clean_fix
    (fun c hc hw => clean_ws_space hc hw)
    (clean_noTwo hasc')
    (fun c hc => clean_ascii hc)
    (fun c cs hc => clean_head hc)
    (fun c hc => clean_last hc)

/-- Witness for C2 (amended): idempotence at a concrete ASCII input with
leading, trailing and repeated whitespace. -/
theorem claimC2_clean_idempotent_ascii_witness :
    (∀ c ∈ " hello   world ".toList, c.toNat ≤ 0x7F) ∧
    clean_text (clean_text " hello   world ".toList) =
      clean_text " hello   world ".toList :=
  ⟨by decide, claimC2_clean_idempotent_ascii _ (by decide)⟩

/-- Counterexample to C2 as stated: on `"aé b"` one application of
`clean_text` yields `"a  b"` (the non-ASCII character becomes a space after
whitespace was already collapsed), and a second application collapses the new
double space, so `clean_text` is not idempotent. -/
theorem claimC2_counterexample :
    clean_text (clean_text ['a', Char.ofNat 233, ' ', 'b']) ≠
      clean_text ['a', Char.ofNat 233, ' ', 'b'] := by decide

/-- C10: `clean_text` preserves every non-whitespace ASCII character, in
order and multiplicity (so control characters such as `0x01` survive), and
conversely every output character lies in the 7-bit ASCII range. -/
theorem claimC10_nonws_ascii_preserved :
    (∀ s : List Char,
      (clean_text s).filter (fun c => decide (c.toNat ≤ 0x7F) && !isPyWs c) =
        s.filter (fun c => decide (c.toNat ≤ 0x7F) && !isPyWs c)) ∧
    (∀ (s : List Char), ∀ c ∈ clean_text s, c.toNat ≤ 0x7F) := by
  constructor
  · intro s
    rw [clean_text]
    by_cases hs : s = []
    · rw [if_pos hs, hs]
    · rw [if_neg hs]
      have hws : ∀ c, isPyWs c = true →
          (decide (c.toNat ≤ 0x7F) && !isPyWs c) = false := by
        intro c hc; simp [hc]
      have hsp : (decide ((' ' : Char).toNat ≤ 0x7F) && !isPyWs ' ') = false := by
        decide
      have hna : ∀ c, isNonAscii c = true →
          (decide (c.toNat ≤ 0x7F) && !isPyWs c) = false := by
        intro c hc
        simp only [isNonAscii, decide_eq_true_eq] at hc
        simp [Nat.not_le.mpr hc]
      rw [sw_filter hws, cr_filter hna hsp, cr_filter hws hsp]
  · intro s c hc
    have := clean_ascii hc
    simpa [isNonAscii, Nat.not_lt] using this

/-! ## Block numbering -/

theorem pdfGo_numbers_lb : ∀ (ps : List PdfPage) (n : Nat),
    ∀ b ∈ (extractPdfGo n ps).1, n < b.number
  | [], n, b, hb => by simp [extractPdfGo] at hb
  | pg :: rest, n, b, hb => by
    simp only [extractPdfGo] at hb
    rcases List.mem_append.mp hb with h1 | h1
    · by_cases hc : clean_text pg.text = []
      · rw [if_pos hc] at h1; simp at h1
      · rw [if_neg hc] at h1
        rw [List.mem_singleton] at h1
        subst h1
        exact Nat.lt_succ_self n
    · exact Nat.lt_of_succ_lt (pdfGo_numbers_lb rest (n + 1) b h1)

theorem pdfGo_numbers_chain : ∀ (ps : List PdfPage) (n : Nat),
    List.Chain' (· < ·) (((extractPdfGo n ps).1).map Block.number)
  | [], n => by simp [extractPdfGo]
  | pg :: rest, n => by
    simp only [extractPdfGo, List.map_append]
    by_cases hc : clean_text pg.text = []
    · rw [if_pos hc]
      simpa using pdfGo_numbers_chain rest (n + 1)
    · rw [if_neg hc]
      simp only [List.map_cons, List.map_nil, List.singleton_append]
      rw [List.chain'_cons']
      refine ⟨?_, pdfGo_numbers_chain rest (n + 1)⟩
      intro m hm
      have hmem := List.mem_of_mem_head? hm
      obtain ⟨b, hb, hbm⟩ := List.mem_map.mp hmem
      exact hbm ▸ pdfGo_numbers_lb rest (n + 1) b hb

theorem pptxSlide_number (idx : Nat) (imgs : List Image)
    (shapes : List PptxShape) : (pptxSlide idx imgs shapes).1.number = idx := rfl

theorem pptxGo_numbers : ∀ (ss : List (List PptxShape)) (idx : Nat) (imgs : List Image),
    ((extractPptxGo idx imgs ss).1).map Block.number = List.range' idx ss.length
  | [], _, _ => rfl
  | shapes :: rest, idx, imgs => by
    simp only [extractPptxGo, List.map_cons, List.length_cons, List.range'_succ,
      List.cons.injEq]
    exact ⟨pptxSlide_number idx imgs shapes, pptxGo_numbers rest (idx + 1) _⟩

theorem pptxGo_length (ss : List (List PptxShape)) (idx : Nat) (imgs : List Image) :
    ((extractPptxGo idx imgs ss).1).length = ss.length := by
  have h := congrArg List.length (pptxGo_numbers ss idx imgs)
  rwa [List.length_map, List.length_range'] at h

theorem docxGo_numbers_lb : ∀ (ps : List DocxPara) (sc : Nat) (cur : List (List Char)),
    ∀ b ∈ docxGo sc cur ps, sc ≤ b.number
  | [], sc, cur, b, hb => by
    rw [docxGo] at hb
    by_cases hc : cur = []
    · rw [if_pos hc] at hb; simp at hb
    · rw [if_neg hc] at hb
      have : b = mkSection sc cur := by simpa using hb
      rw [this]; rfl
  | p :: rest, sc, cur, b, hb => by
    rw [docxGo] at hb
    by_cases ht : stripWs p.text = []
    · rw [if_pos ht] at hb
      exact docxGo_numbers_lb rest sc cur b hb
    · rw [if_neg ht] at hb
      by_cases hh : isDocxHeading (stripWs p.text) p.style_heading
      · rw [if_pos hh] at hb
        by_cases hc : cur = []
        · rw [if_pos hc] at hb
          rcases List.mem_cons.mp hb with h1 | h1
          · rw [h1]; rfl
          · exact docxGo_numbers_lb rest sc [] b h1
        · rw [if_neg hc] at hb
          rcases List.mem_cons.mp hb with h1 | h1
          · rw [h1]; rfl
          · rcases List.mem_cons.mp h1 with h2 | h2
            · rw [h2]; exact Nat.le_succ sc
            · exact Nat.le_of_succ_le (docxGo_numbers_lb rest (sc + 1) [] b h2)
      · rw [if_neg hh] at hb
        exact docxGo_numbers_lb rest sc (cur ++ [stripWs p.text]) b hb

theorem docxGo_numbers_chain : ∀ (ps : List DocxPara) (sc : Nat) (cur : List (List Char)),
    List.Chain' (· ≤ ·) ((docxGo sc cur ps).map Block.number)
  | [], sc, cur => by
    rw [docxGo]
    by_cases hc : cur = []
    · rw [if_pos hc]; simp
    · rw [if_neg hc]; simp
  | p :: rest, sc, cur => by
    rw [docxGo]
    by_cases ht : stripWs p.text = []
    · rw [if_pos ht]
      exact docxGo_numbers_chain rest sc cur
    · rw [if_neg ht]
      by_cases hh : isDocxHeading (stripWs p.text) p.style_heading
      · rw [if_pos hh]
        by_cases hc : cur = []
        · rw [if_pos hc]
          simp only [List.map_cons]
          rw [List.chain'_cons']
          refine ⟨?_, docxGo_numbers_chain rest sc []⟩
          intro m hm
          obtain ⟨b, hb, hbm⟩ := List.mem_map.mp (List.mem_of_mem_head? hm)
          exact hbm ▸ docxGo_numbers_lb rest sc [] b hb
        · rw [if_neg hc]
          simp only [List.map_cons]
          rw [List.chain'_cons']
          constructor
          · intro m hm
            simp only [List.head?_cons, Option.mem_def, Option.some.injEq] at hm
            rw [← hm]
            exact Nat.le_succ sc
          · rw [List.chain'_cons']
            refine ⟨?_, docxGo_numbers_chain rest (sc + 1) []⟩
            intro m hm
            obtain ⟨b, hb, hbm⟩ := List.mem_map.mp (List.mem_of_mem_head? hm)
            exact hbm ▸ docxGo_numbers_lb rest (sc + 1) [] b hb
      · rw [if_neg hh]
        exact docxGo_numbers_chain rest sc (cur ++ [stripWs p.text])

theorem pdfGo_length : ∀ (ps : List PdfPage) (n : Nat),
    ((extractPdfGo n ps).1).length =
      (ps.filter (fun p => !(clean_text p.text).isEmpty)).length
  | [], _ => rfl
  | pg :: rest, n => by
    simp only [extractPdfGo, List.length_append, List.filter_cons]
    by_cases hc : clean_text pg.text = []
    · rw [if_pos hc]
      simp only [hc, List.isEmpty_nil, Bool.not_true, List.length_nil, Nat.zero_add]
      exact pdfGo_length rest (n + 1)
    · rw [if_neg hc]
      have hne : (!(clean_text pg.text).isEmpty) = true := by
        cases hcl : clean_text pg.text with
        | nil => exact absurd hcl hc
        | cons a t => simp
      simp only [hne, eq_self_iff_true, if_true, List.length_cons,
        List.length_singleton, List.length_nil]
      rw [pdfGo_length rest (n + 1)]
      omega

/-- C1, amended: block numbers are monotone in emission order, but only the
slide extractor produces exactly `1..K`.  `extract_pptx` numbers are exactly
`1..K`; `extract_pdf` numbers are strictly increasing page indices (empty
pages are skipped, so gaps occur); `extract_docx` numbers are non-decreasing
and start at 1 or later (a heading block shares its number with the adjacent
section, so repeats occur). -/
theorem claimC1_numbers_amended :
    (∀ ps : List PdfPage,
      List.Chain' (· < ·) (((extract_pdf ps).1).map Block.number)) ∧
    (∀ ss : List (List PptxShape),
      ((extract_pptx ss).1).map Block.number = List.range' 1 ss.length) ∧
    (∀ d : DocxDoc,
      List.Chain' (· ≤ ·) (((extract_docx d).1).map Block.number) ∧
      ∀ b ∈ (extract_docx d).1, 1 ≤ b.number) := by
  refine ⟨fun ps => pdfGo_numbers_chain ps 0, fun ss => pptxGo_numbers ss 1 [], ?_⟩
  intro d
  simp only [extract_docx]
  by_cases hs : docxGo 1 [] d.paragraphs = []
  · rw [if_pos hs]
    exact ⟨by simp, by intro b hb; simp at hb; rw [hb]⟩
  · rw [if_neg hs]
    exact ⟨docxGo_numbers_chain d.paragraphs 1 [],
      fun b hb => docxGo_numbers_lb d.paragraphs 1 [] b hb⟩

/-- Witness for C1 (amended), discharging the membership hypothesis of the
docx clause at a concrete document. -/
theorem claimC1_numbers_amended_witness :
    (⟨1, "section", "Section 1".toList, "hi".toList, true⟩ : Block) ∈
      (extract_docx ⟨[⟨"hi".toList, false⟩], some []⟩).1 ∧
    1 ≤ (⟨1, "section", "Section 1".toList, "hi".toList, true⟩ : Block).number :=
  ⟨by decide,
   (claimC1_numbers_amended.2.2 ⟨[⟨"hi".toList, false⟩], some []⟩).2 _ (by decide)⟩

/-- Counterexample to C1 as stated: a flowing document whose first paragraph
is the heading `"INTRO"` followed by one body paragraph yields two blocks
both numbered 1 (the heading reuses `section_count` without consuming it),
so the numbers are `[1, 1]`, not `1..2`. -/
theorem claimC1_counterexample :
    ((extract_docx ⟨[⟨"INTRO".toList, false⟩, ⟨"hello world".toList, false⟩],
        some []⟩).1).map Block.number ≠
      List.range' 1
        ((extract_docx ⟨[⟨"INTRO".toList, false⟩, ⟨"hello world".toList, false⟩],
            some []⟩).1).length := by decide

/-- C9: `extract_pptx` emits exactly one block per slide, numbered in slide
order (even a slide with no shapes yields a block), whereas `extract_pdf`
emits exactly one block per page with non-empty cleaned text (empty pages
are omitted). -/
theorem claimC9_one_block_per_slide :
    (∀ ss : List (List PptxShape),
      ((extract_pptx ss).1).length = ss.length ∧
      ((extract_pptx ss).1).map Block.number = List.range' 1 ss.length) ∧
    (∀ ps : List PdfPage,
      ((extract_pdf ps).1).length =
        (ps.filter (fun p => !(clean_text p.text).isEmpty)).length) :=
  ⟨fun ss => ⟨pptxGo_length ss 1 [], pptxGo_numbers ss 1 []⟩,
   fun ps => pdfGo_length ps 0⟩

/-! ## Image block references -/

theorem pptxTextStep_images (idx : Nat) (st : PptxState) (sh : PptxShape) :
    (pptxTextStep idx st sh).images = st.images := by
  rw [pptxTextStep]
  split
  · rfl
  · dsimp only
    split
    · rfl
    · split <;> rfl

theorem pptxPicStep_images (idx : Nat) (st : PptxState) (sh : PptxShape) :
    (pptxPicStep idx st sh).images = st.images ∨
    ∃ info, (pptxPicStep idx st sh).images =
      st.images ++ [pptxMkImage idx st.images.length info] := by
  rw [pptxPicStep]
  by_cases h13 : sh.shape_type = 13
  · rw [if_pos h13]
    cases sh.image with
    | none => exact Or.inl rfl
    | some info => exact Or.inr ⟨info, rfl⟩
  · rw [if_neg h13]
    exact Or.inl rfl

theorem pptxShapeStep_images_mem (idx : Nat) (st : PptxState) (sh : PptxShape)
    {img : Image} (h : img ∈ (pptxShapeStep idx st sh).images) :
    img ∈ st.images ∨ img.slide = idx := by
  rw [pptxShapeStep] at h
  rcases pptxPicStep_images idx (pptxTextStep idx st sh) sh with he | ⟨info, he⟩
  · rw [he, pptxTextStep_images] at h
    exact Or.inl h
  · rw [he, pptxTextStep_images] at h
    rcases List.mem_append.mp h with h1 | h1
    · exact Or.inl h1
    · right
      have he2 : img = pptxMkImage idx st.images.length info := by
        simpa using h1
      rw [he2]
      rfl
    

theorem pptxFold_images_mem :
    ∀ (shapes : List PptxShape) (idx : Nat) (st : PptxState) {img : Image},
    img ∈ (shapes.foldl (pptxShapeStep idx) st).images →
    img ∈ st.images ∨ img.slide = idx
  | [], _, _, _, h => Or.inl h
  | sh :: rest, idx, st, img, h => by
    rw [List.foldl_cons] at h
    rcases pptxFold_images_mem rest idx (pptxShapeStep idx st sh) h with h1 | h1
    · exact pptxShapeStep_images_mem idx st sh h1
    · exact Or.inr h1

theorem pptxSlide_images_mem (idx : Nat) (imgs : List Image)
    (shapes : List PptxShape) {img : Image}
    (h : img ∈ (pptxSlide idx imgs shapes).2) :
    img ∈ imgs ∨ img.slide = idx := by
  rw [pptxSlide] at h
  exact pptxFold_images_mem shapes idx _ h

theorem pptxGo_images_mem :
    ∀ (ss : List (List PptxShape)) (idx : Nat) (imgs : List Image) {img : Image},
    img ∈ (extractPptxGo idx imgs ss).2 →
    img ∈ imgs ∨ ∃ b ∈ (extractPptxGo idx imgs ss).1, b.number = img.slide
  | [], _, _, _, h => Or.inl h
  | shapes :: rest, idx, imgs, img, h => by
    simp only [extractPptxGo] at h ⊢
    rcases pptxGo_images_mem rest (idx + 1) (pptxSlide idx imgs shapes).2 h with h1 | h1
    · rcases pptxSlide_images_mem idx imgs shapes h1 with h2 | h2
      · exact Or.inl h2
      · right
        exact ⟨(pptxSlide idx imgs shapes).1, List.mem_cons_self _ _,
          by rw [pptxSlide_number, h2]⟩
    · right
      obtain ⟨b, hb, hbn⟩ := h1
      exact ⟨b, List.mem_cons_of_mem _ hb, hbn⟩

theorem docxRelStep_images_mem {acc : List Image} {r : DocxRel} {img : Image}
    (h : img ∈ docxRelStep acc r) : img ∈ acc ∨ img.slide = 1 := by
  rw [docxRelStep] at h
  by_cases hir : containsSeq "image".toList r.target_ref = true
  · rw [if_pos hir] at h
    cases hb : r.blob with
    | none => rw [hb] at h; exact Or.inl h
    | some bytes =>
      rw [hb] at h
      rcases List.mem_append.mp h with h1 | h1
      · exact Or.inl h1
      · right
        have he : img = _ := List.mem_singleton.mp h1
        rw [he]
  · rw [if_neg hir] at h
    exact Or.inl h

theorem docxFold_images_mem :
    ∀ (rs : List DocxRel) (acc : List Image) {img : Image},
    img ∈ rs.foldl docxRelStep acc → img ∈ acc ∨ img.slide = 1
  | [], _, _, h => Or.inl h
  | r :: rest, acc, img, h => by
    rw [List.foldl_cons] at h
    rcases docxFold_images_mem rest (docxRelStep acc r) h with h1 | h1
    · exact docxRelStep_images_mem h1
    · exact Or.inr h1

theorem docx_images_slide (d : DocxDoc) {img : Image}
    (h : img ∈ (extract_docx d).2) : img.slide = 1 := by
  simp only [extract_docx] at h
  cases hr : d.rels with
  | none =>
    rw [hr] at h
    simp [docxAllImages] at h
  | some rs =>
    rw [hr] at h
    rcases docxFold_images_mem rs [] (by simpa [docxAllImages] using h) with h1 | h1
    · simp at h1
    · exact h1

theorem pdfPageImages_slide :
    ∀ (l : List (Option PdfImageInfo)) (pn i : Nat) {img : Image},
    img ∈ pdfPageImages pn i l → img.slide = pn + 1
  | [], _, _, _, h => by simp [pdfPageImages] at h
  | none :: rest, pn, i, img, h => by
    rw [pdfPageImages] at h
    exact pdfPageImages_slide rest pn (i + 1) h
  | some info :: rest, pn, i, img, h => by
    rw [pdfPageImages] at h
    rcases List.mem_cons.mp h with h1 | h1
    · rw [h1]
    · exact pdfPageImages_slide rest pn (i + 1) h1

theorem pdfGo_images_ref :
    ∀ (ps : List PdfPage) (n : Nat) {img : Image},
    img ∈ (extractPdfGo n ps).2 →
    ∃ j pg, ps[j]? = some pg ∧ img.slide = n + j + 1 ∧
      (clean_text pg.text ≠ [] →
        ∃ b ∈ (extractPdfGo n ps).1, b.number = img.slide)
  | [], _, _, h => by simp [extractPdfGo] at h
  | pg :: rest, n, img, h => by
    simp only [extractPdfGo] at h ⊢
    rcases List.mem_append.mp h with h1 | h1
    · refine ⟨0, pg, by simp, by rw [pdfPageImages_slide pg.images n 0 h1], ?_⟩
      intro hc
      refine ⟨{ number := n + 1, type := "page",
                title := ("Page " ++ toString (n + 1)).toList,
                content := clean_text pg.text,
                has_content := decide (50 < (clean_text pg.text).length) },
        ?_, ?_⟩
      · rw [if_neg hc]
        exact List.mem_append_left _ (by simp)
      · rw [pdfPageImages_slide pg.images n 0 h1]
    · obtain ⟨j, pg', hj, hs, himpl⟩ := pdfGo_images_ref rest (n + 1) h1
      refine ⟨j + 1, pg', by simpa using hj, by omega, ?_⟩
      intro hc
      obtain ⟨b, hb, hbn⟩ := himpl hc
      exact ⟨b, List.mem_append_right _ hb, hbn⟩

/-- C3, amended: every slide-deck image references an emitted block, and
every flowing-document image carries `block_ref = 1`; a paginated-document
image references the 1-based index of its own page, which is the number of an
emitted block whenever that page has non-empty cleaned text, but pages whose
cleaned text is empty emit no block while their images still carry the page
index. -/
theorem claimC3_image_block_refs :
    (∀ (ss : List (List PptxShape)) (img : Image), img ∈ (extract_pptx ss).2 →
      ∃ b ∈ (extract_pptx ss).1, b.number = img.slide) ∧
    (∀ (d : DocxDoc) (img : Image), img ∈ (extract_docx d).2 →
      img.slide = 1) ∧
    (∀ (ps : List PdfPage) (img : Image), img ∈ (extract_pdf ps).2 →
      ∃ j pg, ps[j]? = some pg ∧ img.slide = j + 1 ∧
        (clean_text pg.text ≠ [] →
          ∃ b ∈ (extract_pdf ps).1, b.number = img.slide)) := by
  refine ⟨?_, fun d img h => docx_images_slide d h, ?_⟩
  · intro ss img h
    rcases pptxGo_images_mem ss 1 [] h with h1 | h1
    · simp at h1
    · exact h1
  · intro ps img h
    obtain ⟨j, pg, hj, hs, himpl⟩ := pdfGo_images_ref ps 0 h
    exact ⟨j, pg, hj, by omega, himpl⟩

/-- Witness for C3 (amended): a one-slide deck with one picture shape; the
image references block 1, which exists. -/
theorem claimC3_image_block_refs_witness :
    (⟨"pptx_s1_img0", 1, "data:image/png;base64,AA==", "pptx"⟩ : Image) ∈
      (extract_pptx [[⟨none, 13, some ⟨[0], none⟩⟩]]).2 ∧
    ∃ b ∈ (extract_pptx [[⟨none, 13, some ⟨[0], none⟩⟩]]).1,
      b.number =
        (⟨"pptx_s1_img0", 1, "data:image/png;base64,AA==", "pptx"⟩ : Image).slide :=
  ⟨by decide, claimC3_image_block_refs.1 _ _ (by decide)⟩

/-- Counterexample to C3 as stated: a one-page PDF whose page text is empty
but which carries one image emits no block at all, yet the image has
`slide = 1`, so the image's block reference matches no block. -/
theorem claimC3_counterexample :
    ¬ (∀ img ∈ (extract_pdf [⟨[], [some ⟨[0], "png"⟩]⟩]).2,
        ∃ b ∈ (extract_pdf [⟨[], [some ⟨[0], "png"⟩]⟩]).1,
          b.number = img.slide) := by decide

/-! ## Block titles -/

theorem append_toList_ne_nil (s t : String) (h : s.data ≠ []) :
    (s ++ t).toList ≠ [] := by
  show (s ++ t).data ≠ []
  rw [String.data_append]
  intro hc
  exact h (List.append_eq_nil.mp hc).1

theorem pdfGo_titles : ∀ (ps : List PdfPage) (n : Nat),
    ∀ b ∈ (extractPdfGo n ps).1, b.title ≠ []
  | [], _, b, hb => by simp [extractPdfGo] at hb
  | pg :: rest, n, b, hb => by
    simp only [extractPdfGo] at hb
    rcases List.mem_append.mp hb with h1 | h1
    · by_cases hc : clean_text pg.text = []
      · rw [if_pos hc] at h1; simp at h1
      · rw [if_neg hc, List.mem_singleton] at h1
        subst h1
        exact append_toList_ne_nil "Page " _ (by decide)
    · exact pdfGo_titles rest (n + 1) b h1

theorem docxGo_titles : ∀ (ps : List DocxPara) (sc : Nat) (cur : List (List Char)),
    ∀ b ∈ docxGo sc cur ps, b.title ≠ []
  | [], sc, cur, b, hb => by
    rw [docxGo] at hb
    by_cases hc : cur = []
    · rw [if_pos hc] at hb; simp at hb
    · rw [if_neg hc, List.mem_singleton] at hb
      subst hb
      exact append_toList_ne_nil "Section " _ (by decide)
  | p :: rest, sc, cur, b, hb => by
    rw [docxGo] at hb
    by_cases ht : stripWs p.text = []
    · rw [if_pos ht] at hb
      exact docxGo_titles rest sc cur b hb
    · rw [if_neg ht] at hb
      by_cases hh : isDocxHeading (stripWs p.text) p.style_heading
      · rw [if_pos hh] at hb
        by_cases hc : cur = []
        · rw [if_pos hc] at hb
          rcases List.mem_cons.mp hb with h1 | h1
          · rw [h1]; exact ht
          · exact docxGo_titles rest sc [] b h1
        · rw [if_neg hc] at hb
          rcases List.mem_cons.mp hb with h1 | h1
          · rw [h1]
            exact append_toList_ne_nil "Section " _ (by decide)
          · rcases List.mem_cons.mp h1 with h2 | h2
            · rw [h2]; exact ht
            · exact docxGo_titles rest (sc + 1) [] b h2
      · rw [if_neg hh] at hb
        exact docxGo_titles rest sc (cur ++ [stripWs p.text]) b hb

/-- C4, amended: every block emitted by the paginated and flowing extractors
has a non-empty title (positional placeholder by default); the slide
extractor, however, can emit an empty title, because the secondary
first-fragment inference overwrites the `"Slide N"` placeholder with the
stripped first `.`-fragment of the cleaned body, which is empty for example
on a slide with no text shapes. -/
theorem claimC4_titles_amended :
    (∀ (ps : List PdfPage), ∀ b ∈ (extract_pdf ps).1, b.title ≠ []) ∧
    (∀ (d : DocxDoc), ∀ b ∈ (extract_docx d).1, b.title ≠ []) ∧
    (∃ ss : List (List PptxShape), ∃ b ∈ (extract_pptx ss).1, b.title = []) := by
  refine ⟨fun ps => pdfGo_titles ps 0, ?_, ?_⟩
  · intro d b hb
    simp only [extract_docx] at hb
    by_cases hs : docxGo 1 [] d.paragraphs = []
    · rw [if_pos hs, List.mem_singleton] at hb
      subst hb
      show "Document".toList ≠ []
      decide
    · rw [if_neg hs] at hb
      exact docxGo_titles d.paragraphs 1 [] b hb
  · exact ⟨[[]], ⟨1, "slide", [], [], false⟩, by decide, rfl⟩

/-- Witness for C4 (amended): the docx clause at a concrete document. -/
theorem claimC4_titles_amended_witness :
    (⟨1, "section", "Section 1".toList, "hi".toList, true⟩ : Block) ∈
      (extract_docx ⟨[⟨"hi".toList, false⟩], some []⟩).1 ∧
    (⟨1, "section", "Section 1".toList, "hi".toList, true⟩ : Block).title ≠ [] :=
  ⟨by decide,
   claimC4_titles_amended.2.1 ⟨[⟨"hi".toList, false⟩], some []⟩ _ (by decide)⟩

/-- Counterexample to C4 as stated: a deck with one shapeless slide yields a
block whose title is the empty string, not a positional placeholder. -/
theorem claimC4_counterexample :
    ¬ (∀ b ∈ (extract_pptx [[]]).1, b.title ≠ []) := by decide

/-! ## Significance flags -/

theorem pdfGo_has_content : ∀ (ps : List PdfPage) (n : Nat),
    ∀ b ∈ (extractPdfGo n ps).1, b.has_content = decide (50 < b.content.length)
  | [], _, b, hb => by simp [extractPdfGo] at hb
  | pg :: rest, n, b, hb => by
    simp only [extractPdfGo] at hb
    rcases List.mem_append.mp hb with h1 | h1
    · by_cases hc : clean_text pg.text = []
      · rw [if_pos hc] at h1; simp at h1
      · rw [if_neg hc, List.mem_singleton] at h1
        subst h1
        rfl
    · exact pdfGo_has_content rest (n + 1) b h1

theorem pptxGo_has_content :
    ∀ (ss : List (List PptxShape)) (idx : Nat) (imgs : List Image),
    ∀ b ∈ (extractPptxGo idx imgs ss).1,
      b.has_content = decide (30 < b.content.length)
  | [], _, _, b, hb => by simp [extractPptxGo] at hb
  | shapes :: rest, idx, imgs, b, hb => by
    simp only [extractPptxGo] at hb
    rcases List.mem_cons.mp hb with h1 | h1
    · subst h1
      rfl
    · exact pptxGo_has_content rest (idx + 1) _ b h1

theorem docxGo_has_content : ∀ (ps : List DocxPara) (sc : Nat) (cur : List (List Char)),
    ∀ b ∈ docxGo sc cur ps, b.has_content = decide (b.type ≠ "heading")
  | [], sc, cur, b, hb => by
    rw [docxGo] at hb
    by_cases hc : cur = []
    · rw [if_pos hc] at hb; simp at hb
    · rw [if_neg hc, List.mem_singleton] at hb
      subst hb
      rfl
  | p :: rest, sc, cur, b, hb => by
    rw [docxGo] at hb
    by_cases ht : stripWs p.text = []
    · rw [if_pos ht] at hb
      exact docxGo_has_content rest sc cur b hb
    · rw [if_neg ht] at hb
      by_cases hh : isDocxHeading (stripWs p.text) p.style_heading
      · rw [if_pos hh] at hb
        by_cases hc : cur = []
        · rw [if_pos hc] at hb
          rcases List.mem_cons.mp hb with h1 | h1
          · subst h1; rfl
          · exact docxGo_has_content rest sc [] b h1
        · rw [if_neg hc] at hb
          rcases List.mem_cons.mp hb with h1 | h1
          · subst h1; rfl
          · rcases List.mem_cons.mp h1 with h2 | h2
            · subst h2; rfl
            · exact docxGo_has_content rest (sc + 1) [] b h2
      · rw [if_neg hh] at hb
        exact docxGo_has_content rest sc (cur ++ [stripWs p.text]) b hb

/-- C6, amended: `has_content` equals body length exceeding the threshold
only for the paginated extractor (50) and the slide extractor (30); the
flowing extractor ignores body length entirely: its section and
whole-document blocks always carry `has_content = true` and its heading
blocks always `false` (that is, `has_content = (kind does not equal heading)`). -/
theorem claimC6_significance_amended :
    (∀ (ps : List PdfPage), ∀ b ∈ (extract_pdf ps).1,
      b.has_content = decide (50 < b.content.length)) ∧
    (∀ (ss : List (List PptxShape)), ∀ b ∈ (extract_pptx ss).1,
      b.has_content = decide (30 < b.content.length)) ∧
    (∀ (d : DocxDoc), ∀ b ∈ (extract_docx d).1,
      b.has_content = decide (b.type ≠ "heading")) := by
  refine ⟨fun ps => pdfGo_has_content ps 0,
    fun ss => pptxGo_has_content ss 1 [], ?_⟩
  intro d b hb
  simp only [extract_docx] at hb
  by_cases hs : docxGo 1 [] d.paragraphs = []
  · rw [if_pos hs, List.mem_singleton] at hb
    subst hb
    rfl
  · rw [if_neg hs] at hb
    exact docxGo_has_content d.paragraphs 1 [] b hb

/-- Witness for C6 (amended): the docx clause at a concrete short section. -/
theorem claimC6_significance_amended_witness :
    (⟨1, "section", "Section 1".toList, "hi".toList, true⟩ : Block) ∈
      (extract_docx ⟨[⟨"hi".toList, false⟩], some []⟩).1 ∧
    (⟨1, "section", "Section 1".toList, "hi".toList, true⟩ : Block).has_content =
      decide ((⟨1, "section", "Section 1".toList, "hi".toList, true⟩ : Block).type ≠
        "heading") :=
  ⟨by decide,
   claimC6_significance_amended.2.2 ⟨[⟨"hi".toList, false⟩], some []⟩ _ (by decide)⟩

/-- Counterexample to C6 as stated: a flowing document with one two-character
body paragraph yields a section block whose body has length 2 (not above the
30-character threshold) yet `has_content = true`. -/
theorem claimC6_counterexample :
    ¬ (∀ b ∈ (extract_docx ⟨[⟨"hi".toList, false⟩], some []⟩).1,
        b.has_content = decide (30 < b.content.length)) := by decide

/-! ## Heading-before-content ordering in `extract_docx` -/

/-- C7: a flowing document made of the all-caps paragraph `"INTRO"` followed
by two non-heading body paragraphs yields exactly a heading block titled
`INTRO` (empty body, not significant) and then one section block titled
`"Section 1"` whose body is the two stripped paragraphs joined with a newline
and cleaned; no section precedes the heading. -/
theorem claimC7_intro_heading_then_section (b1 b2 : List Char)
    (h1 : stripWs b1 ≠ []) (h2 : stripWs b2 ≠ [])
    (h3 : ¬ isDocxHeading (stripWs b1) false)
    (h4 : ¬ isDocxHeading (stripWs b2) false) :
    extract_docx ⟨[⟨"INTRO".toList, false⟩, ⟨b1, false⟩, ⟨b2, false⟩], some []⟩ =
      ([⟨1, "heading", "INTRO".toList, [], false⟩,
        ⟨1, "section", "Section 1".toList,
          clean_text (stripWs b1 ++ '\n' :: stripWs b2), true⟩], []) := by
  have e1 : docxGo 1 [] [⟨"INTRO".toList, false⟩, ⟨b1, false⟩, ⟨b2, false⟩] =
      mkHeading 1 ("INTRO".toList) :: docxGo 1 [] [⟨b1, false⟩, ⟨b2, false⟩] := by
    rw [docxGo]
    dsimp only
    rw [show stripWs ("INTRO".toList) = "INTRO".toList from by decide,
      if_neg (show ¬("INTRO".toList : List Char) = [] from by decide),
      if_pos (show isDocxHeading "INTRO".toList false from by decide),
      if_pos rfl]
  have e2 : docxGo 1 [] [⟨b1, false⟩, ⟨b2, false⟩] =
      docxGo 1 [stripWs b1] [⟨b2, false⟩] := by
    rw [docxGo]
    dsimp only
    rw [if_neg h1, if_neg h3]
    rfl
  have e3 : docxGo 1 [stripWs b1] [⟨b2, false⟩] =
      docxGo 1 [stripWs b1, stripWs b2] [] := by
    conv_lhs => rw [docxGo]
    rw [if_neg h2, if_neg h4]
    rfl
  have e4 : docxGo 1 [stripWs b1, stripWs b2] ([] : List DocxPara) =
      [mkSection 1 [stripWs b1, stripWs b2]] := by
    rw [docxGo]
    rw [if_neg (show ¬([stripWs b1, stripWs b2] : List (List Char)) = [] from by
      simp)]
  have hsec : mkSection 1 [stripWs b1, stripWs b2] =
      ⟨1, "section", "Section 1".toList,
        clean_text (stripWs b1 ++ '\n' :: stripWs b2), true⟩ := by
    rw [mkSection]
    have htitle : ("Section " ++ toString 1).toList = "Section 1".toList := by decide
    rw [htitle]
    rfl
  simp only [extract_docx]
  rw [e1, e2, e3, e4, hsec]
  rw [if_neg (show ¬(mkHeading 1 ("INTRO".toList) ::
      [(⟨1, "section", "Section 1".toList,
        clean_text (stripWs b1 ++ '\n' :: stripWs b2), true⟩ : Block)]) = [] from by
    simp)]
  rw [show mkHeading 1 ("INTRO".toList) =
    ⟨1, "heading", "INTRO".toList, [], false⟩ from rfl]
  rfl

/-- Witness for C7 at two concrete body paragraphs. -/
theorem claimC7_intro_heading_then_section_witness :
    (stripWs "hello one".toList ≠ [] ∧ stripWs "more two".toList ≠ [] ∧
     ¬ isDocxHeading (stripWs "hello one".toList) false ∧
     ¬ isDocxHeading (stripWs "more two".toList) false) ∧
    extract_docx ⟨[⟨"INTRO".toList, false⟩, ⟨"hello one".toList, false⟩,
        ⟨"more two".toList, false⟩], some []⟩ =
      ([⟨1, "heading", "INTRO".toList, [], false⟩,
        ⟨1, "section", "Section 1".toList,
          clean_text (stripWs "hello one".toList ++ '\n' ::
            stripWs "more two".toList), true⟩], []) :=
  ⟨⟨by decide, by decide, by decide, by decide⟩,
   claimC7_intro_heading_then_section _ _ (by decide) (by decide)
     (by decide) (by decide)⟩

/-! ## Slide title heuristics -/

/-- C5, amended: a single text element under 100 characters on slide 1 is
promoted to the slide title by the positional heuristic and leaves an empty
body.  The same element on slide 2 is first appended to the body, but it is
not thereby guaranteed to stay body text: the secondary inference then
promotes the first `.`-fragment of the cleaned body to the title whenever
that fragment is shorter than 80 characters, and only an element whose first
fragment is at least 80 characters long remains body, under the default
title `"Slide 2"`. -/
theorem claimC5_title_heuristics :
    (∀ t : List Char, stripWs t ≠ [] → (stripWs t).length < 100 →
      extract_pptx [[⟨some t, 0, none⟩]] =
        ([⟨1, "slide", stripWs t, [], false⟩], [])) ∧
    (∀ t : List Char, stripWs t ≠ [] →
      80 ≤ ((splitOnChar '.' (clean_text (stripWs t))).headD []).length →
      extract_pptx [[], [⟨some t, 0, none⟩]] =
        ([⟨1, "slide", [], [], false⟩,
          ⟨2, "slide", "Slide 2".toList, clean_text (stripWs t),
            decide (30 < (clean_text (stripWs t)).length)⟩], [])) := by
  constructor
  · intro t hne hlen
    have hst : List.foldl (pptxShapeStep 1)
        ⟨[], ("Slide " ++ toString 1).toList, false, []⟩
        [⟨some t, 0, none⟩] = ⟨[], stripWs t, true, []⟩ := by
      rw [List.foldl_cons, List.foldl_nil, pptxShapeStep, pptxTextStep]
      dsimp only
      rw [if_neg hne,
        if_pos (show pptxTitleCond false (stripWs t) 1 from ⟨rfl, hlen, rfl⟩)]
      rw [pptxPicStep]
      rfl
    have htc : pptxTitleContent ⟨[], stripWs t, true, []⟩
        (clean_text (joinWith '\n' [])) = (stripWs t, []) := by
      rw [pptxTitleContent]
      dsimp only
      rw [if_neg (show ¬ pptxInferCond
        (splitOnChar '.' (clean_text (joinWith '\n' ([] : List (List Char))))) true
        from by decide)]
      rfl
    simp only [extract_pptx, extractPptxGo, pptxSlide, hst, htc]
    rfl
  · intro t hne h80
    have hst1 : pptxTitleContent
        ⟨[], ("Slide " ++ toString 1).toList, false, []⟩
        (clean_text (joinWith '\n' [])) = ([], []) := by
      rw [pptxTitleContent]
      dsimp only
      rw [if_pos (show pptxInferCond
        (splitOnChar '.' (clean_text (joinWith '\n' ([] : List (List Char))))) false
        from by decide)]
      rfl
    have hstB : List.foldl (pptxShapeStep 2)
        ⟨[], ("Slide " ++ toString 2).toList, false, []⟩
        [⟨some t, 0, none⟩] =
        ⟨[stripWs t], ("Slide " ++ toString 2).toList, false, []⟩ := by
      rw [List.foldl_cons, List.foldl_nil, pptxShapeStep, pptxTextStep]
      dsimp only
      rw [if_neg hne,
        if_neg (show ¬ pptxTitleCond false (stripWs t) 2 from
          fun h => absurd h.2.2 (by decide))]
      rw [pptxPicStep]
      rfl
    have htcB : pptxTitleContent
        ⟨[stripWs t], ("Slide " ++ toString 2).toList, false, []⟩
        (clean_text (joinWith '\n' [stripWs t])) =
        (("Slide " ++ toString 2).toList, clean_text (joinWith '\n' [stripWs t])) := by
      rw [pptxTitleContent]
      dsimp only
      rw [if_neg ?hc]
      case hc =>
        intro hcond
        have hfr := hcond.2.1
        rw [show joinWith '\n' [stripWs t] = stripWs t from rfl] at hfr
        omega
    simp only [extract_pptx, extractPptxGo, pptxSlide, List.foldl_nil, hst1, hstB, htcB]
    rfl

/-- Witness for C5 (amended): slide-1 promotion at `"Intro Slide"`, and
slide-2 body retention at an 85-character element with no period. -/
theorem claimC5_title_heuristics_witness :
    (stripWs "Intro Slide".toList ≠ [] ∧
     (stripWs "Intro Slide".toList).length < 100 ∧
     extract_pptx [[⟨some "Intro Slide".toList, 0, none⟩]] =
       ([⟨1, "slide", stripWs "Intro Slide".toList, [], false⟩], [])) ∧
    (stripWs (List.replicate 85 'a') ≠ [] ∧
     80 ≤ ((splitOnChar '.'
       (clean_text (stripWs (List.replicate 85 'a')))).headD []).length ∧
     extract_pptx [[], [⟨some (List.replicate 85 'a'), 0, none⟩]] =
       ([⟨1, "slide", [], [], false⟩,
         ⟨2, "slide", "Slide 2".toList, clean_text (stripWs (List.replicate 85 'a')),
           decide (30 < (clean_text (stripWs (List.replicate 85 'a'))).length)⟩],
        [])) :=
  ⟨⟨by decide, by decide,
    claimC5_title_heuristics.1 _ (by decide) (by decide)⟩,
   ⟨by decide, by decide,
    claimC5_title_heuristics.2 _ (by decide) (by decide)⟩⟩

/-- Counterexample to C5 as stated: the element `"Hello"` (under 100
characters) on slide 2 does not stay body content; the secondary inference
makes it the slide title and leaves the body empty. -/
theorem claimC5_counterexample :
    ((extract_pptx [[], [⟨some "Hello".toList, 0, none⟩]]).1.getD 1
        ⟨0, "", [], [], false⟩).title = "Hello".toList ∧
    ((extract_pptx [[], [⟨some "Hello".toList, 0, none⟩]]).1.getD 1
        ⟨0, "", [], [], false⟩).content = [] := by decide

/-! ## Fail-soft image handling -/

theorem pdfGo_blocks_no_images : ∀ (ps : List PdfPage) (n : Nat),
    (extractPdfGo n (ps.map (fun p => ⟨p.text, []⟩))).1 = (extractPdfGo n ps).1
  | [], _ => rfl
  | pg :: rest, n => by
    simp only [extractPdfGo, List.map_cons]
    rw [pdfGo_blocks_no_images rest (n + 1)]

theorem pdfPageImages_skip_none (pn : Nat) :
    ∀ (pre : List (Option PdfImageInfo)) (i : Nat) (post : List (Option PdfImageInfo)),
    pdfPageImages pn i (pre ++ none :: post) =
      pdfPageImages pn i pre ++ pdfPageImages pn (i + pre.length + 1) post
  | [], i, post => by
    simp only [List.nil_append, pdfPageImages, List.length_nil]
  | none :: pre, i, post => by
    simp only [List.cons_append, pdfPageImages, List.length_cons, List.append_eq]
    rw [pdfPageImages_skip_none pn pre (i + 1) post]
    have he : i + 1 + pre.length + 1 = i + (pre.length + 1) + 1 := by omega
    rw [he]
  | some info :: pre, i, post => by
    simp only [List.cons_append, pdfPageImages, List.length_cons, List.append_eq]
    rw [pdfPageImages_skip_none pn pre (i + 1) post]
    have he : i + 1 + pre.length + 1 = i + (pre.length + 1) + 1 := by omega
    rw [he]

theorem pptxShapeStep_blank (idx : Nat) (st : PptxState) (stype : Nat) :
    pptxShapeStep idx st ⟨none, stype, none⟩ = st := by
  rw [pptxShapeStep, pptxTextStep]
  dsimp only
  rw [pptxPicStep]
  dsimp only
  split <;> rfl

theorem pptxFold_insert_blank (idx : Nat) (stype : Nat)
    (shs1 shs2 : List PptxShape) (st : PptxState) :
    (shs1 ++ ⟨none, stype, none⟩ :: shs2).foldl (pptxShapeStep idx) st =
      (shs1 ++ shs2).foldl (pptxShapeStep idx) st := by
  rw [List.foldl_append, List.foldl_append, List.foldl_cons, pptxShapeStep_blank]

theorem pptxGo_insert_blank :
    ∀ (ss1 : List (List PptxShape)) (idx : Nat) (imgs : List Image)
      (shs1 shs2 : List PptxShape) (stype : Nat) (ss2 : List (List PptxShape)),
    extractPptxGo idx imgs (ss1 ++ (shs1 ++ ⟨none, stype, none⟩ :: shs2) :: ss2) =
      extractPptxGo idx imgs (ss1 ++ (shs1 ++ shs2) :: ss2)
  | [], idx, imgs, shs1, shs2, stype, ss2 => by
    simp only [List.nil_append, extractPptxGo, pptxSlide, pptxFold_insert_blank]
  | s :: ss1, idx, imgs, shs1, shs2, stype, ss2 => by
    have e1 : (s :: ss1) ++ (shs1 ++ ⟨none, stype, none⟩ :: shs2) :: ss2 =
        s :: (ss1 ++ (shs1 ++ ⟨none, stype, none⟩ :: shs2) :: ss2) := rfl
    have e2 : (s :: ss1) ++ (shs1 ++ shs2) :: ss2 =
        s :: (ss1 ++ (shs1 ++ shs2) :: ss2) := rfl
    rw [e1, e2, extractPptxGo, extractPptxGo,
      pptxGo_insert_blank ss1 (idx + 1) _ shs1 shs2 stype ss2]

theorem docxRelStep_failed (acc : List Image) (r : DocxRel) (h : r.blob = none) :
    docxRelStep acc r = acc := by
  rw [docxRelStep, h]
  split <;> rfl

theorem docxFold_insert_failed (rs1 : List DocxRel) (acc : List Image)
    (r : DocxRel) (h : r.blob = none) (rs2 : List DocxRel) :
    (rs1 ++ r :: rs2).foldl docxRelStep acc =
      (rs1 ++ rs2).foldl docxRelStep acc := by
  rw [List.foldl_append, List.foldl_append, List.foldl_cons,
    docxRelStep_failed _ _ h]

/-- C8: image failures are fail-soft and isolated.  Paginated blocks never
depend on image data at all; in the page image loop a failed entry
contributes nothing while the following entries are emitted exactly as they
are with the index counter advanced past the failure; a slide shape whose
text is absent and whose image retrieval fails is entirely inert (the deck
extracts as if the shape were not there); and a flowing-document relationship
whose blob read fails is entirely inert. -/
theorem claimC8_failsoft_images :
    (∀ ps : List PdfPage,
      (extract_pdf (ps.map (fun p => ⟨p.text, []⟩))).1 = (extract_pdf ps).1) ∧
    (∀ (pn i : Nat) (pre post : List (Option PdfImageInfo)),
      pdfPageImages pn i (pre ++ none :: post) =
        pdfPageImages pn i pre ++ pdfPageImages pn (i + pre.length + 1) post) ∧
    (∀ (ss1 ss2 : List (List PptxShape)) (shs1 shs2 : List PptxShape) (stype : Nat),
      extract_pptx (ss1 ++ (shs1 ++ ⟨none, stype, none⟩ :: shs2) :: ss2) =
        extract_pptx (ss1 ++ (shs1 ++ shs2) :: ss2)) ∧
    (∀ (paras : List DocxPara) (rs1 rs2 : List DocxRel) (r : DocxRel),
      r.blob = none →
      extract_docx ⟨paras, some (rs1 ++ r :: rs2)⟩ =
        extract_docx ⟨paras, some (rs1 ++ rs2)⟩) := by
  refine ⟨fun ps => pdfGo_blocks_no_images ps 0,
    fun pn i pre post => pdfPageImages_skip_none pn pre i post,
    fun ss1 ss2 shs1 shs2 stype =>
      pptxGo_insert_blank ss1 1 [] shs1 shs2 stype ss2, ?_⟩
  intro paras rs1 rs2 r h
  simp only [extract_docx, docxAllImages]
  rw [docxFold_insert_failed rs1 [] r h rs2]

/-- Witness for C8, discharging the blob-failure hypothesis at a concrete
relationship. -/
theorem claimC8_failsoft_images_witness :
    (⟨"word/media/image1.png".toList, none⟩ : DocxRel).blob = none ∧
    extract_docx ⟨[], some ([] ++ ⟨"word/media/image1.png".toList, none⟩ :: [])⟩ =
      extract_docx ⟨[], some ([] ++ [])⟩ :=
  ⟨rfl, claimC8_failsoft_images.2.2.2 [] [] [] _ rfl⟩

/-- Witness for C10, discharging the membership hypothesis of the
ASCII-range clause at a concrete cleaned string. -/
theorem claimC10_nonws_ascii_preserved_witness :
    'a' ∈ clean_text "a b".toList ∧ ('a').toNat ≤ 0x7F :=
  ⟨by decide, claimC10_nonws_ascii_preserved.2 "a b".toList 'a' (by decide)⟩
